import Mathlib

/-!
A shallow embedding of the `midi_project` program (`src/main.rs`).

Modelling decisions:

* Rust `f32` durations are modelled as exact rationals (`ℚ`).  Every duration
  the program manipulates is a fractional note-length; the spec states all
  duration laws over exact fractions.  The one special float value the program
  can produce, `f32::NEG_INFINITY` (the start of `Parallel::duration`'s fold),
  is modelled as `⊥` in `WithBot ℚ`.  Addition and `max` on `WithBot ℚ` agree
  with `f32` arithmetic on `-∞` (`⊥ + x = ⊥`, `max ⊥ x = x`), and no other
  non-finite value is reachable.  For the concrete shipped melody the `f32`
  evaluation agrees exactly with the rational one: every literal except `1/12`
  is a dyadic rational handled exactly, and the rounding of `1.0/12.0` cancels
  when multiplied by `3840.0` (the nearest `f32` to `1/12` times `3840` rounds
  to exactly `320.0`, which is also the exact rational value).
* Rust `u32` fields (`octave`, pitch numbers, channel numbers) are modelled as
  `Nat`; no arithmetic in the program comes near `2^32`.
* `Sequential::duration` sums with `Iterator::sum` (a left fold from `0.0`) and
  `Parallel::duration` left-folds `max` from `NEG_INFINITY`; addition and `max`
  on `WithBot ℚ` are commutative and associative, so the structurally recursive
  right folds below compute the same values.
* The trait-object tree (`Vec<Box<dyn MusicElement>>`) becomes a nested
  inductive type; `clone`/`set_channel` box-aliasing behaviour is modelled
  separately with an explicit heap (see the `Heap` section below).
-/

/-- The duration of a whole note in MIDI ticks (`const MIDI_TEMPO: f32 = 3840.0`). -/
def MIDI_TEMPO : ℚ := 3840

/-- `enum NoteClass { C, Cs, D, Ds, E, F, Fs, G, Gs, A, As, B }`. -/
inductive NoteClass
  | C | Cs | D | Ds | E | F | Fs | G | Gs | A | As | B
deriving DecidableEq, Repr

/-- The value of `self.name.clone() as u32`: the Rust discriminant of
`NoteClass`, determined by the declaration order in the source. -/
def NoteClass.toU32 : NoteClass → Nat
  | C => 0 | Cs => 1 | D => 2 | Ds => 3 | E => 4 | F => 5
  | Fs => 6 | G => 7 | Gs => 8 | A => 9 | As => 10 | B => 11

/-- `enum Channel { Piano, Organ, Guitar, Violin, Flute, Trumpet, Helicopter, Telephone }`. -/
inductive Channel
  | Piano | Organ | Guitar | Violin | Flute | Trumpet | Helicopter | Telephone
deriving DecidableEq, Repr

/-- `Channel::to_u32`: `self as u32 + 1`. -/
def Channel.to_u32 : Channel → Nat
  | Piano => 1 | Organ => 2 | Guitar => 3 | Violin => 4
  | Flute => 5 | Trumpet => 6 | Helicopter => 7 | Telephone => 8

/-- `struct MidiNote { pitch: u32, duration: f32 }`. -/
structure MidiNote where
  pitch : Nat
  duration : ℚ
deriving DecidableEq, Repr

/-- `struct Note { name, octave, instrument, duration }`. -/
structure Note where
  name : NoteClass
  octave : Nat
  instrument : Channel
  duration : ℚ
deriving DecidableEq, Repr

/-- `Note::new`: instrument defaults to `Piano`, duration to `0.25`. -/
def Note.new (name : NoteClass) (octave : Nat) : Note :=
  ⟨name, octave, Channel.Piano, 1/4⟩

/-- The builder method `Note::channel`. -/
def Note.withChannel (n : Note) (instrument : Channel) : Note :=
  ⟨n.name, n.octave, instrument, n.duration⟩

/-- The builder method `Note::duration` (shadowed name: the field is also
called `duration`). -/
def Note.withDuration (n : Note) (duration : ℚ) : Note :=
  ⟨n.name, n.octave, n.instrument, duration⟩

/-- `<Note as MusicElement>::duration`: `self.duration * MIDI_TEMPO`. -/
def Note.tickDuration (n : Note) : ℚ := n.duration * MIDI_TEMPO

/-- `Note::to_midi`: pitch `(12 * self.octave) + (self.name.clone() as u32)`,
duration `self.duration()` (the trait method, i.e. ticks). -/
def Note.to_midi (n : Note) : MidiNote :=
  ⟨12 * n.octave + n.name.toU32, n.tickDuration⟩

/-- `struct Pause { duration: f32 }`. -/
structure Pause where
  duration : ℚ
deriving DecidableEq, Repr

/-- `Pause::new`. -/
def Pause.new (duration : ℚ) : Pause := ⟨duration⟩

/-- `<Pause as MusicElement>::duration`: `self.duration * MIDI_TEMPO`. -/
def Pause.tickDuration (p : Pause) : ℚ := p.duration * MIDI_TEMPO

/-- The closed set of `MusicElement` implementors: `Note`, `Pause`,
`Sequential` and `Parallel` (the two composites hold
`Vec<Box<dyn MusicElement>>`, modelled as a `List`). -/
inductive MusicElement
  | note (n : Note)
  | pause (p : Pause)
  | sequential (elements : List MusicElement)
  | parallel (elements : List MusicElement)

mutual

/-- The trait method `duration`, dispatched over the four implementors.
`Sequential` sums its children's durations (`0` for an empty list);
`Parallel` folds `max` starting from `NEG_INFINITY` (`⊥`). -/
def MusicElement.duration : MusicElement → WithBot ℚ
  | .note n => ((n.tickDuration : ℚ) : WithBot ℚ)
  | .pause p => ((p.tickDuration : ℚ) : WithBot ℚ)
  | .sequential es => sumDurations es
  | .parallel es => maxDurations es

/-- `Sequential::duration`'s fold: `self.elements.iter().map(|e| e.duration()).sum()`. -/
def sumDurations : List MusicElement → WithBot ℚ
  | [] => ((0 : ℚ) : WithBot ℚ)
  | e :: es => e.duration + sumDurations es

/-- `Parallel::duration`'s fold:
`self.elements.iter().fold(NEG_INFINITY, |acc, e| e.duration().max(acc))`. -/
def maxDurations : List MusicElement → WithBot ℚ
  | [] => ⊥
  | e :: es => max e.duration (maxDurations es)

end

mutual

/-- The trait method `set_channel`: a `Note` replaces its instrument, a
`Pause` does nothing, the composites recurse into every child. -/
def MusicElement.set_channel : MusicElement → Channel → MusicElement
  | .note n, c => .note ⟨n.name, n.octave, c, n.duration⟩
  | .pause p, _ => .pause p
  | .sequential es, c => .sequential (setChannelList es c)
  | .parallel es, c => .parallel (setChannelList es c)

/-- The `for element in self.elements.iter_mut()` loop of the composites'
`set_channel`. -/
def setChannelList : List MusicElement → Channel → List MusicElement
  | [], _ => []
  | e :: es, c => e.set_channel c :: setChannelList es c

end

mutual

/-- All `Note` leaves contained in an element, in traversal order. -/
def MusicElement.notes : MusicElement → List Note
  | .note n => [n]
  | .pause _ => []
  | .sequential es => notesList es
  | .parallel es => notesList es

/-- All `Note` leaves contained in a list of elements. -/
def notesList : List MusicElement → List Note
  | [] => []
  | e :: es => e.notes ++ notesList es

end

mutual

/-- All `Pause` leaves contained in an element, in traversal order. -/
def MusicElement.pauses : MusicElement → List Pause
  | .note _ => []
  | .pause p => [p]
  | .sequential es => pausesList es
  | .parallel es => pausesList es

/-- All `Pause` leaves contained in a list of elements. -/
def pausesList : List MusicElement → List Pause
  | [] => []
  | e :: es => e.pauses ++ pausesList es

end

/-- An induction principle for the nested inductive `MusicElement`,
with a simultaneous motive for child lists. -/
theorem MusicElement.induction
    (P : MusicElement → Prop) (Q : List MusicElement → Prop)
    (hnote : ∀ n, P (.note n))
    (hpause : ∀ p, P (.pause p))
    (hseq : ∀ es, Q es → P (.sequential es))
    (hpar : ∀ es, Q es → P (.parallel es))
    (hnil : Q [])
    (hcons : ∀ e es, P e → Q es → Q (e :: es)) :
    (∀ t, P t) ∧ (∀ es, Q es) := by
  have hT : ∀ t, P t := fun t =>
    @MusicElement.rec P Q hnote hpause hseq hpar hnil hcons t
  refine ⟨hT, ?_⟩
  intro es
  induction es with
  | nil => exact hnil
  | cons e es ih => exact hcons e es (hT e) ih

/-- Unfolding lemma: `duration` on a `Note` leaf. -/
theorem duration_note (n : Note) :
    (MusicElement.note n).duration = ((n.tickDuration : ℚ) : WithBot ℚ) := rfl

/-- Unfolding lemma: `duration` on a `Pause` leaf. -/
theorem duration_pause (p : Pause) :
    (MusicElement.pause p).duration = ((p.tickDuration : ℚ) : WithBot ℚ) := rfl

/-- Unfolding lemma: `duration` on a `Sequential`. -/
theorem duration_sequential (es : List MusicElement) :
    (MusicElement.sequential es).duration = sumDurations es := rfl

/-- Unfolding lemma: `duration` on a `Parallel`. -/
theorem duration_parallel (es : List MusicElement) :
    (MusicElement.parallel es).duration = maxDurations es := rfl

/-! The composition script from `main`. -/

/-- The closure `let c4 = |dur| Note::new(NoteClass::C, 4).duration(dur)`. -/
def c4 (dur : ℚ) : MusicElement := .note ((Note.new NoteClass.C 4).withDuration dur)

/-- The closure `d4` from `main`. -/
def d4 (dur : ℚ) : MusicElement := .note ((Note.new NoteClass.D 4).withDuration dur)

/-- The closure `e4` from `main`. -/
def e4 (dur : ℚ) : MusicElement := .note ((Note.new NoteClass.E 4).withDuration dur)

/-- The closure `f4` from `main`. -/
def f4 (dur : ℚ) : MusicElement := .note ((Note.new NoteClass.F 4).withDuration dur)

/-- The closure `g4` from `main`. -/
def g4 (dur : ℚ) : MusicElement := .note ((Note.new NoteClass.G 4).withDuration dur)

/-- The closure `c5` from `main`. -/
def c5 (dur : ℚ) : MusicElement := .note ((Note.new NoteClass.C 5).withDuration dur)

/-- `let c5_triplet = sequence![c5(1.0/12.0), c5(1.0/12.0), c5(1.0/12.0)]`. -/
def c5_triplet : MusicElement := .sequential [c5 (1/12), c5 (1/12), c5 (1/12)]

/-- `let g4_triplet = sequence![g4(1.0/12.0), g4(1.0/12.0), g4(1.0/12.0)]`. -/
def g4_triplet : MusicElement := .sequential [g4 (1/12), g4 (1/12), g4 (1/12)]

/-- `let e4_triplet = sequence![e4(1.0/12.0), e4(1.0/12.0), e4(1.0/12.0)]`. -/
def e4_triplet : MusicElement := .sequential [e4 (1/12), e4 (1/12), e4 (1/12)]

/-- `let c4_triplet = sequence![c4(1.0/12.0), c4(1.0/12.0), c4(1.0/12.0)]`. -/
def c4_triplet : MusicElement := .sequential [c4 (1/12), c4 (1/12), c4 (1/12)]

/-- The shipped 19-element melody `music` (row row row your boat). -/
def music : MusicElement :=
  .sequential [c4 (1/4), c4 (1/4), c4 (3/16), d4 (1/16), e4 (1/4),
               e4 (3/16), d4 (1/16), e4 (3/16), f4 (1/16), g4 (1/2),
               c5_triplet, g4_triplet, e4_triplet, c4_triplet,
               g4 (3/16), f4 (1/16), e4 (3/16), d4 (1/16), c4 (1/2)]

/-- `music_organ`: a deep copy of `music` retargeted to `Organ`. -/
def music_organ : MusicElement := music.set_channel Channel.Organ

/-- `music_violin`: a deep copy of `music` retargeted to `Violin`. -/
def music_violin : MusicElement := music.set_channel Channel.Violin

/-- The organ voice of the canon: `sequence![Pause::new(1.0), music_organ]`. -/
def organ_voice : MusicElement := .sequential [.pause (Pause.new 1), music_organ]

/-- The violin voice of the canon: `sequence![Pause::new(2.0), music_violin]`. -/
def violin_voice : MusicElement := .sequential [.pause (Pause.new 2), music_violin]

/-- `let canon = parallel![music, sequence![Pause::new(1.0), music_organ], sequence![Pause::new(2.0), music_violin]]`. -/
def canon : MusicElement := .parallel [music, organ_voice, violin_voice]

/-- The printed quantity `duration() / MIDI_TEMPO` ("bars"), lifted over the
possibly-`-∞` duration (in `f32`, `-∞ / 3840.0 = -∞`). -/
def bars (t : MusicElement) : WithBot ℚ :=
  WithBot.map (fun d => d / MIDI_TEMPO) t.duration

/-! Helper lemmas shared by several claims. -/

/-- `set_channel` never changes any duration (it only touches `instrument`
fields, which `duration` ignores). -/
theorem duration_set_channel (c : Channel) :
    ∀ t : MusicElement, (t.set_channel c).duration = t.duration := by
  have h := MusicElement.induction
    (fun t => (t.set_channel c).duration = t.duration)
    (fun es => sumDurations (setChannelList es c) = sumDurations es ∧
      maxDurations (setChannelList es c) = maxDurations es)
    (fun n => by simp [MusicElement.set_channel, MusicElement.duration, Note.tickDuration])
    (fun p => by simp [MusicElement.set_channel, MusicElement.duration])
    (fun es ih => by simp [MusicElement.set_channel, MusicElement.duration, ih.1])
    (fun es ih => by simp [MusicElement.set_channel, MusicElement.duration, ih.2])
    (by simp [setChannelList])
    (fun e es ihe ihes => by
      simp [setChannelList, sumDurations, maxDurations, ihe, ihes.1, ihes.2])
  exact h.1

/-- The shipped melody lasts 15360 ticks. -/
theorem music_duration_eq : music.duration = ((15360 : ℚ) : WithBot ℚ) := by
  simp only [music, c5_triplet, g4_triplet, e4_triplet, c4_triplet,
    c4, d4, e4, f4, g4, c5, Note.new, Note.withDuration,
    MusicElement.duration, sumDurations, Note.tickDuration, MIDI_TEMPO]
  norm_num [← WithBot.coe_add]

/-- The organ voice lasts 3840 + 15360 = 19200 ticks. -/
theorem organ_voice_duration_eq :
    organ_voice.duration = ((19200 : ℚ) : WithBot ℚ) := by
  have h1 : music_organ.duration = ((15360 : ℚ) : WithBot ℚ) := by
    rw [music_organ, duration_set_channel, music_duration_eq]
  simp only [organ_voice, duration_sequential, sumDurations, duration_pause, h1,
    Pause.tickDuration, Pause.new, MIDI_TEMPO]
  norm_num [← WithBot.coe_add]

/-- The violin voice lasts 7680 + 15360 = 23040 ticks. -/
theorem violin_voice_duration_eq :
    violin_voice.duration = ((23040 : ℚ) : WithBot ℚ) := by
  have h1 : music_violin.duration = ((15360 : ℚ) : WithBot ℚ) := by
    rw [music_violin, duration_set_channel, music_duration_eq]
  simp only [violin_voice, duration_sequential, sumDurations, duration_pause, h1,
    Pause.tickDuration, Pause.new, MIDI_TEMPO]
  norm_num [← WithBot.coe_add]

/-- The canon lasts max(15360, 19200, 23040) = 23040 ticks. -/
theorem canon_duration_eq : canon.duration = ((23040 : ℚ) : WithBot ℚ) := by
  simp only [canon, duration_parallel, maxDurations,
    music_duration_eq, organ_voice_duration_eq, violin_voice_duration_eq]
  rw [max_bot_right, ← WithBot.coe_max, ← WithBot.coe_max, WithBot.coe_eq_coe]
  norm_num [max_def]

/-- C1 (counterexample): the shipped melody's `duration() / MIDI_TEMPO` is
4.0 bars, not the 2.0 bars the claim states. -/
theorem claim1_counterexample : bars music ≠ ((2 : ℚ) : WithBot ℚ) := by
  rw [bars, music_duration_eq, WithBot.map_coe]
  rw [MIDI_TEMPO]
  intro h
  rw [WithBot.coe_eq_coe] at h
  norm_num at h

/-- C1 (amended): the shipped 19-element melody's `duration()` divided by the
tempo constant 3840.0 equals exactly 4.0 bars (its note-lengths sum to four
whole notes). -/
theorem claim1_melody_bars : bars music = ((4 : ℚ) : WithBot ℚ) := by
  rw [bars, music_duration_eq, WithBot.map_coe, MIDI_TEMPO]
  norm_num

/-- C2 (counterexample): the canon's `duration()/MIDI_TEMPO` is 6.0 bars, not
`max(melody_bars, 1 beat + melody_bars, 2 beats + melody_bars)` with a beat
being a quarter of a bar (the claim's "2 beats = 0.5 bar" reading, which would
give 4.5 bars): the pauses are 1.0 and 2.0 whole notes, i.e. whole bars. -/
theorem claim2_counterexample :
    bars canon ≠
      max (bars music)
        (max (((1/4 : ℚ) : WithBot ℚ) + bars music)
          (((1/2 : ℚ) : WithBot ℚ) + bars music)) := by
  simp only [bars, canon_duration_eq, music_duration_eq, WithBot.map_coe, MIDI_TEMPO]
  rw [← WithBot.coe_add, ← WithBot.coe_add, ← WithBot.coe_max, ← WithBot.coe_max]
  intro h
  rw [WithBot.coe_eq_coe] at h
  norm_num [max_def] at h

/-- C2 (amended): the canon's `duration()/MIDI_TEMPO` equals
`max(melody_bars, 1 + melody_bars, 2 + melody_bars)` — the offsets are 1 and 2
whole bars (`Pause::new(1.0)` and `Pause::new(2.0)` are whole-note fractions) —
i.e. the duration of the latest-starting violin voice; the organ and violin
copies have exactly the melody's duration. -/
theorem claim2_canon_bars :
    bars canon =
      max (bars music)
        (max (((1 : ℚ) : WithBot ℚ) + bars music)
          (((2 : ℚ) : WithBot ℚ) + bars music)) ∧
    bars canon = bars violin_voice ∧
    music_organ.duration = music.duration ∧
    music_violin.duration = music.duration := by
  refine ⟨?_, ?_, ?_, ?_⟩
  · simp only [bars, canon_duration_eq, music_duration_eq, WithBot.map_coe, MIDI_TEMPO]
    rw [← WithBot.coe_add, ← WithBot.coe_add, ← WithBot.coe_max, ← WithBot.coe_max,
      WithBot.coe_eq_coe]
    norm_num [max_def]
  · simp only [bars, canon_duration_eq, violin_voice_duration_eq]
  · rw [music_organ, duration_set_channel]
  · rw [music_violin, duration_set_channel]

/-- C7: a `Note` of fractional note-length `d` has `duration() = d * 3840.0`,
and likewise a `Pause`. -/
theorem claim7_leaf_tick_duration (n : Note) (p : Pause) :
    (MusicElement.note n).duration = ((n.duration * 3840 : ℚ) : WithBot ℚ) ∧
    (MusicElement.pause p).duration = ((p.duration * 3840 : ℚ) : WithBot ℚ) := by
  constructor
  · rw [duration_note, Note.tickDuration, MIDI_TEMPO]
  · rw [duration_pause, Pause.tickDuration, MIDI_TEMPO]

/-- The semitone-offset table as the spec words it: C = 0 through B = 11. -/
def semitoneOffset : NoteClass → Nat
  | .C => 0 | .Cs => 1 | .D => 2 | .Ds => 3 | .E => 4 | .F => 5
  | .Fs => 6 | .G => 7 | .Gs => 8 | .A => 9 | .As => 10 | .B => 11

/-- C9: `to_midi()` returns pitch `12*octave + semitone_offset(name)` (the
`as u32` discriminant agrees with the spec's C=0..B=11 table) and the note's
tick duration `d * 3840.0`. -/
theorem claim9_to_midi (n : Note) :
    n.to_midi.pitch = 12 * n.octave + semitoneOffset n.name ∧
    n.to_midi.duration = n.duration * MIDI_TEMPO := by
  obtain ⟨name, octave, instrument, dur⟩ := n
  refine ⟨?_, rfl⟩
  cases name <;> rfl

/-! Lemmas about the `Parallel` fold. -/

/-- Every child's duration is bounded by `maxDurations`. -/
theorem le_maxDurations (es : List MusicElement) :
    ∀ e ∈ es, e.duration ≤ maxDurations es := by
  induction es with
  | nil => intro e he; cases he
  | cons a as ih =>
    intro e he
    rcases List.mem_cons.mp he with h | h
    · subst h; exact le_max_left _ _
    · exact le_trans (ih e h) (le_max_right _ _)

/-- For a nonempty child list, `maxDurations` is one of the children's
durations. -/
theorem maxDurations_mem (es : List MusicElement) (h : es ≠ []) :
    maxDurations es ∈ es.map MusicElement.duration := by
  induction es with
  | nil => exact absurd rfl h
  | cons a as ih =>
    rw [show maxDurations (a :: as) = max a.duration (maxDurations as) from rfl]
    rcases as with _ | ⟨b, bs⟩
    · simp [maxDurations, max_bot_right]
    · rcases max_choice a.duration (maxDurations (b :: bs)) with hm | hm <;> rw [hm]
      · simp
      · simp only [List.map_cons, List.mem_cons]
        right
        simpa using ih (by simp)

/-- C3: `Parallel::duration` returns the maximum of its children's tick
durations — it is one of them and bounds each of them — and an empty
`Parallel` has duration `⊥`, the model of `f32::NEG_INFINITY`. -/
theorem claim3_parallel_duration (es : List MusicElement) :
    (es ≠ [] →
      (MusicElement.parallel es).duration ∈ es.map MusicElement.duration ∧
      ∀ e ∈ es, e.duration ≤ (MusicElement.parallel es).duration) ∧
    (MusicElement.parallel []).duration = ⊥ := by
  refine ⟨fun h => ⟨?_, ?_⟩, rfl⟩
  · rw [duration_parallel]; exact maxDurations_mem es h
  · intro e he; rw [duration_parallel]; exact le_maxDurations es e he

/-- Witness for C3 at the concrete child list `[Pause(1.0)]`. -/
theorem claim3_witness :
    ([MusicElement.pause (Pause.new 1)] ≠ ([] : List MusicElement)) ∧
    ((MusicElement.parallel [MusicElement.pause (Pause.new 1)]).duration ∈
        [MusicElement.pause (Pause.new 1)].map MusicElement.duration ∧
      ∀ e ∈ [MusicElement.pause (Pause.new 1)],
        e.duration ≤ (MusicElement.parallel [MusicElement.pause (Pause.new 1)]).duration) :=
  ⟨by simp, (claim3_parallel_duration [MusicElement.pause (Pause.new 1)]).1 (by simp)⟩

/-! Leaf predicates used to state the `Sequential` sum law. -/

/-- Whether an element is a leaf (`Note` or `Pause`). -/
def MusicElement.isLeaf : MusicElement → Bool
  | .note _ => true
  | .pause _ => true
  | .sequential _ => false
  | .parallel _ => false

/-- The fractional note-length carried by a leaf (composites yield `0`). -/
def MusicElement.noteLength : MusicElement → ℚ
  | .note n => n.duration
  | .pause p => p.duration
  | .sequential _ => 0
  | .parallel _ => 0

/-- C4: a `Sequential` of leaves of fractional note-lengths `[d1..dn]` has
`duration() = 3840.0 * (d1 + ... + dn)`, children summed in iteration order;
the instance `es = []` is the empty `Sequential`, whose duration is `0`. -/
theorem claim4_sequential_duration (es : List MusicElement)
    (h : ∀ e ∈ es, e.isLeaf = true) :
    (MusicElement.sequential es).duration =
      ((3840 * (es.map MusicElement.noteLength).sum : ℚ) : WithBot ℚ) := by
  rw [duration_sequential]
  induction es with
  | nil => simp [sumDurations]
  | cons a as ih =>
    have ha := h a (by simp)
    have hd : a.duration = ((3840 * a.noteLength : ℚ) : WithBot ℚ) := by
      cases a with
      | note n =>
        rw [duration_note, Note.tickDuration, MIDI_TEMPO, MusicElement.noteLength,
          WithBot.coe_eq_coe]
        ring
      | pause p =>
        rw [duration_pause, Pause.tickDuration, MIDI_TEMPO, MusicElement.noteLength,
          WithBot.coe_eq_coe]
        ring
      | sequential es' => simp [MusicElement.isLeaf] at ha
      | parallel es' => simp [MusicElement.isLeaf] at ha
    rw [show sumDurations (a :: as) = a.duration + sumDurations as from rfl, hd,
      ih (fun e he => h e (by simp [he])), ← WithBot.coe_add, WithBot.coe_eq_coe,
      List.map_cons, List.sum_cons]
    ring

/-- Witness for C4 at the concrete child list `[Note C4 (1/4), Pause (1/2)]`. -/
theorem claim4_witness :
    (∀ e ∈ [MusicElement.note (Note.new NoteClass.C 4),
        MusicElement.pause (Pause.new (1/2))], e.isLeaf = true) ∧
    (MusicElement.sequential [MusicElement.note (Note.new NoteClass.C 4),
        MusicElement.pause (Pause.new (1/2))]).duration =
      ((3840 * (([MusicElement.note (Note.new NoteClass.C 4),
        MusicElement.pause (Pause.new (1/2))].map MusicElement.noteLength).sum : ℚ) : ℚ) :
        WithBot ℚ) := by
  have hw : ∀ e ∈ [MusicElement.note (Note.new NoteClass.C 4),
      MusicElement.pause (Pause.new (1/2))], e.isLeaf = true := by
    simp [MusicElement.isLeaf]
  exact ⟨hw, claim4_sequential_duration _ hw⟩

/-- C10 (implicit): `set_channel` leaves every duration unchanged; on a `Note`
it replaces exactly the instrument field (name, octave and duration intact);
on a `Pause` it returns the pause unchanged. -/
theorem claim10_set_channel_frame (c : Channel) :
    (∀ t : MusicElement, (t.set_channel c).duration = t.duration) ∧
    (∀ n : Note, (MusicElement.note n).set_channel c =
      MusicElement.note ⟨n.name, n.octave, c, n.duration⟩) ∧
    (∀ p : Pause, (MusicElement.pause p).set_channel c = MusicElement.pause p) :=
  ⟨duration_set_channel c, fun _ => rfl, fun _ => rfl⟩

/-! Lemmas on `set_channel` feeding the idempotence/recursion claim. -/

/-- After `set_channel c`, every `Note` anywhere in the tree carries
instrument `c`. -/
theorem notes_set_channel (c : Channel) :
    (∀ t : MusicElement, ∀ n ∈ (t.set_channel c).notes, n.instrument = c) ∧
    (∀ es : List MusicElement, ∀ n ∈ notesList (setChannelList es c), n.instrument = c) :=
  MusicElement.induction
    (fun t => ∀ n ∈ (t.set_channel c).notes, n.instrument = c)
    (fun es => ∀ n ∈ notesList (setChannelList es c), n.instrument = c)
    (fun n => by simp [MusicElement.set_channel, MusicElement.notes])
    (fun p => by simp [MusicElement.set_channel, MusicElement.notes])
    (fun es ih => by simpa [MusicElement.set_channel, MusicElement.notes] using ih)
    (fun es ih => by simpa [MusicElement.set_channel, MusicElement.notes] using ih)
    (by simp [setChannelList, notesList])
    (fun e es ihe ihes => by
      intro n hn
      rw [show setChannelList (e :: es) c = e.set_channel c :: setChannelList es c from rfl,
        show notesList (e.set_channel c :: setChannelList es c) =
          (e.set_channel c).notes ++ notesList (setChannelList es c) from rfl] at hn
      rcases List.mem_append.mp hn with h | h
      · exact ihe n h
      · exact ihes n h)

/-- `set_channel c` is idempotent. -/
theorem set_channel_idem (c : Channel) :
    (∀ t : MusicElement, (t.set_channel c).set_channel c = t.set_channel c) ∧
    (∀ es : List MusicElement,
      setChannelList (setChannelList es c) c = setChannelList es c) :=
  MusicElement.induction
    (fun t => (t.set_channel c).set_channel c = t.set_channel c)
    (fun es => setChannelList (setChannelList es c) c = setChannelList es c)
    (fun n => rfl)
    (fun p => rfl)
    (fun es ih => by simp [MusicElement.set_channel, ih])
    (fun es ih => by simp [MusicElement.set_channel, ih])
    rfl
    (fun e es ihe ihes => by
      have ihe' : (e.set_channel c).set_channel c = e.set_channel c := ihe
      have ihes' : setChannelList (setChannelList es c) c = setChannelList es c := ihes
      show setChannelList (setChannelList (e :: es) c) c = setChannelList (e :: es) c
      rw [show setChannelList (e :: es) c = e.set_channel c :: setChannelList es c from rfl,
        show setChannelList (e.set_channel c :: setChannelList es c) c =
          (e.set_channel c).set_channel c :: setChannelList (setChannelList es c) c from rfl,
        ihe', ihes'])

/-- `set_channel` leaves every `Pause` in the tree untouched. -/
theorem pauses_set_channel (c : Channel) :
    (∀ t : MusicElement, (t.set_channel c).pauses = t.pauses) ∧
    (∀ es : List MusicElement, pausesList (setChannelList es c) = pausesList es) :=
  MusicElement.induction
    (fun t => (t.set_channel c).pauses = t.pauses)
    (fun es => pausesList (setChannelList es c) = pausesList es)
    (fun n => rfl)
    (fun p => rfl)
    (fun es ih => by simp [MusicElement.set_channel, MusicElement.pauses, ih])
    (fun es ih => by simp [MusicElement.set_channel, MusicElement.pauses, ih])
    rfl
    (fun e es ihe ihes => by
      have ihe' : (e.set_channel c).pauses = e.pauses := ihe
      have ihes' : pausesList (setChannelList es c) = pausesList es := ihes
      show pausesList (setChannelList (e :: es) c) = pausesList (e :: es)
      rw [show setChannelList (e :: es) c = e.set_channel c :: setChannelList es c from rfl,
        show pausesList (e.set_channel c :: setChannelList es c) =
          (e.set_channel c).pauses ++ pausesList (setChannelList es c) from rfl,
        ihe', ihes']
      rfl)

/-- Whether an element is a composite (`Sequential` or `Parallel`). -/
def MusicElement.isComposite : MusicElement → Bool
  | .note _ => false
  | .pause _ => false
  | .sequential _ => true
  | .parallel _ => true

/-- C5: on any composite, `set_channel X` — applied once, and applied twice —
leaves every contained `Note` with instrument `X`, is idempotent, and leaves
every `Pause` in the tree unaffected. -/
theorem claim5_set_channel_recursive_idempotent (t : MusicElement) (c : Channel)
    (_h : t.isComposite = true) :
    (∀ n ∈ (t.set_channel c).notes, n.instrument = c) ∧
    ((t.set_channel c).set_channel c = t.set_channel c) ∧
    (∀ n ∈ ((t.set_channel c).set_channel c).notes, n.instrument = c) ∧
    ((t.set_channel c).pauses = t.pauses) ∧
    (((t.set_channel c).set_channel c).pauses = t.pauses) := by
  have h1 := (notes_set_channel c).1 t
  have h2 := (set_channel_idem c).1 t
  have h3 := (pauses_set_channel c).1 t
  refine ⟨h1, h2, ?_, h3, ?_⟩
  · rw [h2]; exact h1
  · rw [h2]; exact h3

/-- Witness for C5 on the composite `Sequential [Note C4, Pause 1.0]` with
channel `Organ`. -/
theorem claim5_witness :
    ((MusicElement.sequential [MusicElement.note (Note.new NoteClass.C 4),
        MusicElement.pause (Pause.new 1)]).isComposite = true) ∧
    ((∀ n ∈ ((MusicElement.sequential [MusicElement.note (Note.new NoteClass.C 4),
        MusicElement.pause (Pause.new 1)]).set_channel Channel.Organ).notes,
        n.instrument = Channel.Organ) ∧
      (((MusicElement.sequential [MusicElement.note (Note.new NoteClass.C 4),
        MusicElement.pause (Pause.new 1)]).set_channel Channel.Organ).set_channel
          Channel.Organ =
        (MusicElement.sequential [MusicElement.note (Note.new NoteClass.C 4),
        MusicElement.pause (Pause.new 1)]).set_channel Channel.Organ) ∧
      (∀ n ∈ (((MusicElement.sequential [MusicElement.note (Note.new NoteClass.C 4),
        MusicElement.pause (Pause.new 1)]).set_channel Channel.Organ).set_channel
          Channel.Organ).notes,
        n.instrument = Channel.Organ) ∧
      (((MusicElement.sequential [MusicElement.note (Note.new NoteClass.C 4),
        MusicElement.pause (Pause.new 1)]).set_channel Channel.Organ).pauses =
        (MusicElement.sequential [MusicElement.note (Note.new NoteClass.C 4),
        MusicElement.pause (Pause.new 1)]).pauses) ∧
      ((((MusicElement.sequential [MusicElement.note (Note.new NoteClass.C 4),
        MusicElement.pause (Pause.new 1)]).set_channel Channel.Organ).set_channel
          Channel.Organ).pauses =
        (MusicElement.sequential [MusicElement.note (Note.new NoteClass.C 4),
        MusicElement.pause (Pause.new 1)]).pauses)) :=
  ⟨rfl, claim5_set_channel_recursive_idempotent _ Channel.Organ rfl⟩

/-! Predicates used to state the non-negativity invariant. -/

mutual

/-- Every leaf (`Note` or `Pause`) in the element has note-length `≥ 0`. -/
def MusicElement.leafNonneg : MusicElement → Bool
  | .note n => decide (0 ≤ n.duration)
  | .pause p => decide (0 ≤ p.duration)
  | .sequential es => leafNonnegList es
  | .parallel es => leafNonnegList es

/-- `leafNonneg` over a child list. -/
def leafNonnegList : List MusicElement → Bool
  | [] => true
  | e :: es => e.leafNonneg && leafNonnegList es

end

mutual

/-- No `Parallel` anywhere in the element has an empty child list. -/
def MusicElement.noEmptyPar : MusicElement → Bool
  | .note _ => true
  | .pause _ => true
  | .sequential es => noEmptyParList es
  | .parallel es => !es.isEmpty && noEmptyParList es

/-- `noEmptyPar` over a child list. -/
def noEmptyParList : List MusicElement → Bool
  | [] => true
  | e :: es => e.noEmptyPar && noEmptyParList es

end

/-- C8 (counterexample): the empty `Parallel` is built from leaves of
non-negative note-lengths (vacuously) yet its `duration()` is `⊥`, the model
of `f32::NEG_INFINITY`, which is not non-negative. -/
theorem claim8_counterexample :
    (MusicElement.parallel []).leafNonneg = true ∧
    ¬ ((0 : ℚ) : WithBot ℚ) ≤ (MusicElement.parallel []).duration := by
  refine ⟨rfl, ?_⟩
  rw [duration_parallel]
  exact WithBot.not_coe_le_bot 0

/-- C8 (amended): every element whose leaf note-lengths are all `≥ 0` and in
which no `Parallel` subelement has an empty child list has a non-negative
`duration()`.  (The counterexample forces excluding empty `Parallel`s, whose
duration is `-∞`; that exclusion is the only change.) -/
theorem claim8_duration_nonneg (t : MusicElement)
    (h1 : t.leafNonneg = true) (h2 : t.noEmptyPar = true) :
    ((0 : ℚ) : WithBot ℚ) ≤ t.duration := by
  have main := MusicElement.induction
    (fun t => t.leafNonneg = true → t.noEmptyPar = true →
      ((0 : ℚ) : WithBot ℚ) ≤ t.duration)
    (fun es => leafNonnegList es = true → noEmptyParList es = true →
      (((0 : ℚ) : WithBot ℚ) ≤ sumDurations es ∧
        ∀ e ∈ es, ((0 : ℚ) : WithBot ℚ) ≤ e.duration))
    (fun n => by
      intro hl _
      have : (0 : ℚ) ≤ n.duration := by
        simpa [MusicElement.leafNonneg] using hl
      rw [duration_note, Note.tickDuration, MIDI_TEMPO, WithBot.coe_le_coe]
      positivity)
    (fun p => by
      intro hl _
      have : (0 : ℚ) ≤ p.duration := by
        simpa [MusicElement.leafNonneg] using hl
      rw [duration_pause, Pause.tickDuration, MIDI_TEMPO, WithBot.coe_le_coe]
      positivity)
    (fun es ih => by
      intro hl hp
      have hl' : leafNonnegList es = true := hl
      have hp' : noEmptyParList es = true := hp
      rw [duration_sequential]
      exact (ih hl' hp').1)
    (fun es ih => by
      intro hl hp
      have hl' : leafNonnegList es = true := hl
      have hps : (!es.isEmpty && noEmptyParList es) = true := hp
      rw [Bool.and_eq_true] at hps
      rcases es with _ | ⟨e, es'⟩
      · simp at hps
      · rw [duration_parallel]
        refine le_trans ((ih hl' hps.2).2 e (by simp)) ?_
        exact le_maxDurations _ e (by simp))
    (by
      intro _ _
      constructor
      · rw [show sumDurations [] = ((0 : ℚ) : WithBot ℚ) from rfl]
      · intro e he; cases he)
    (fun e es ihe ihes => by
      intro hl hp
      have hl' : (e.leafNonneg && leafNonnegList es) = true := hl
      have hp' : (e.noEmptyPar && noEmptyParList es) = true := hp
      rw [Bool.and_eq_true] at hl' hp'
      have he := ihe hl'.1 hp'.1
      have hes := ihes hl'.2 hp'.2
      constructor
      · rw [show sumDurations (e :: es) = e.duration + sumDurations es from rfl]
        have := add_le_add he hes.1
        simpa using this
      · intro x hx
        rcases List.mem_cons.mp hx with h | h
        · subst h; exact he
        · exact hes.2 x h)
  exact main.1 t h1 h2

/-- Witness for C8 (amended) on the concrete element
`Sequential [Note C4 (1/4), Parallel [Pause 0.5]]`. -/
theorem claim8_witness :
    ((MusicElement.sequential [MusicElement.note (Note.new NoteClass.C 4),
        MusicElement.parallel [MusicElement.pause (Pause.new (1/2))]]).leafNonneg = true) ∧
    ((MusicElement.sequential [MusicElement.note (Note.new NoteClass.C 4),
        MusicElement.parallel [MusicElement.pause (Pause.new (1/2))]]).noEmptyPar = true) ∧
    ((0 : ℚ) : WithBot ℚ) ≤
      (MusicElement.sequential [MusicElement.note (Note.new NoteClass.C 4),
        MusicElement.parallel [MusicElement.pause (Pause.new (1/2))]]).duration := by
  have hl : (MusicElement.sequential [MusicElement.note (Note.new NoteClass.C 4),
      MusicElement.parallel [MusicElement.pause (Pause.new (1/2))]]).leafNonneg = true := by
    show (decide ((0 : ℚ) ≤ 1/4) && ((decide ((0 : ℚ) ≤ 1/2) && true) && true)) = true
    norm_num
  have hp : (MusicElement.sequential [MusicElement.note (Note.new NoteClass.C 4),
      MusicElement.parallel [MusicElement.pause (Pause.new (1/2))]]).noEmptyPar = true := rfl
  exact ⟨hl, hp, claim8_duration_nonneg _ hl hp⟩

/-! ## Heap model of `Box<dyn MusicElement>` ownership

`impl Clone for Box<MusicElement>` calls `clone_box`, which builds
`Box::new(self.clone())` — a fresh box for every node — and `set_channel`
mutates notes in place through `iter_mut`.  To settle the deep-copy
independence claim, the boxes are made explicit: a heap is a list of nodes
addressed by position, composites hold the addresses of their children, and
the operations walk the heap with explicit recursion fuel (the Rust tree is
finite and acyclic, so some fuel always suffices). -/

/-- One boxed node: a leaf, or a composite holding child addresses. -/
inductive HNode
  | note (n : Note)
  | pause (p : Pause)
  | seq (children : List Nat)
  | par (children : List Nat)
deriving DecidableEq, Repr

/-- Child addresses of a node. -/
def HNode.children : HNode → List Nat
  | .note _ => []
  | .pause _ => []
  | .seq as => as
  | .par as => as

/-- The store of boxed nodes; a node's address is its index. -/
structure Heap where
  mem : List HNode
deriving DecidableEq, Repr

/-- Allocation appends a node and returns its fresh address. -/
def Heap.alloc (h : Heap) (nd : HNode) : Heap × Nat :=
  (⟨h.mem ++ [nd]⟩, h.mem.length)

mutual

/-- Read the pure tree rooted at address `a` (`none` on missing fuel or a
dangling address). -/
def readAt : Nat → Heap → Nat → Option MusicElement
  | 0, _, _ => none
  | fuel + 1, h, a =>
    match h.mem[a]? with
    | some (.note n) => some (.note n)
    | some (.pause p) => some (.pause p)
    | some (.seq as) => (readList fuel h as).map MusicElement.sequential
    | some (.par as) => (readList fuel h as).map MusicElement.parallel
    | none => none

/-- Read the trees of a child-address list. -/
def readList : Nat → Heap → List Nat → Option (List MusicElement)
  | 0, _, _ => none
  | _ + 1, _, [] => some []
  | fuel + 1, h, a :: as =>
    match readAt fuel h a, readList fuel h as with
    | some t, some ts => some (t :: ts)
    | _, _ => none

end

mutual

/-- `clone_box` at address `a`: clone the children recursively, then allocate
a fresh box for the node itself; returns the grown heap and the new root. -/
def cloneAt : Nat → Heap → Nat → Option (Heap × Nat)
  | 0, _, _ => none
  | fuel + 1, h, a =>
    match h.mem[a]? with
    | some (.note n) => some (h.alloc (.note n))
    | some (.pause p) => some (h.alloc (.pause p))
    | some (.seq as) =>
      match cloneList fuel h as with
      | some (h1, bs) => some (h1.alloc (.seq bs))
      | none => none
    | some (.par as) =>
      match cloneList fuel h as with
      | some (h1, bs) => some (h1.alloc (.par bs))
      | none => none
    | none => none

/-- Clone each child in order, threading the heap. -/
def cloneList : Nat → Heap → List Nat → Option (Heap × List Nat)
  | 0, _, _ => none
  | _ + 1, h, [] => some (h, [])
  | fuel + 1, h, a :: as =>
    match cloneAt fuel h a with
    | some (h1, b) =>
      match cloneList fuel h1 as with
      | some (h2, bs) => some (h2, b :: bs)
      | none => none
    | none => none

end

mutual

/-- `set_channel` at address `a`, mutating notes in place. -/
def setChanAt : Nat → Channel → Heap → Nat → Option Heap
  | 0, _, _, _ => none
  | fuel + 1, c, h, a =>
    match h.mem[a]? with
    | some (.note n) => some ⟨h.mem.set a (.note ⟨n.name, n.octave, c, n.duration⟩)⟩
    | some (.pause _) => some h
    | some (.seq as) => setChanList fuel c h as
    | some (.par as) => setChanList fuel c h as
    | none => none

/-- `set_channel` over a child-address list, threading the heap. -/
def setChanList : Nat → Channel → Heap → List Nat → Option Heap
  | 0, _, _, _ => none
  | _ + 1, _, h, [] => some h
  | fuel + 1, c, h, a :: as =>
    match setChanAt fuel c h a with
    | some h1 => setChanList fuel c h1 as
    | none => none

end

/-- An index holding a node is within bounds. -/
theorem getElem?_some_lt {α : Type} {l : List α} {i : Nat} {x : α}
    (h : l[i]? = some x) : i < l.length := by
  by_contra hc
  rw [List.getElem?_eq_none (Nat.le_of_not_lt hc)] at h
  exact Option.noConfusion h

/-- `Heap.ExtendedBy h h2`: `h2` is `h` with extra nodes appended. -/
def Heap.ExtendedBy (h h2 : Heap) : Prop := ∃ ext, h2.mem = h.mem ++ ext

/-- A heap extends itself. -/
theorem Heap.ExtendedBy.refl (h : Heap) : h.ExtendedBy h := ⟨[], by simp⟩

/-- Extension is transitive. -/
theorem Heap.ExtendedBy.trans {h h2 h3 : Heap} (h12 : h.ExtendedBy h2)
    (h23 : h2.ExtendedBy h3) : h.ExtendedBy h3 := by
  obtain ⟨e1, he1⟩ := h12
  obtain ⟨e2, he2⟩ := h23
  exact ⟨e1 ++ e2, by rw [he2, he1, List.append_assoc]⟩

/-- Extension can only grow the heap. -/
theorem Heap.ExtendedBy.length_le {h h2 : Heap} (he : h.ExtendedBy h2) :
    h.mem.length ≤ h2.mem.length := by
  obtain ⟨ext, hext⟩ := he
  rw [hext, List.length_append]
  omega

/-- Extension preserves lookups below the old length. -/
theorem Heap.ExtendedBy.get_lt {h h2 : Heap} (he : h.ExtendedBy h2) {i : Nat}
    (hi : i < h.mem.length) : h2.mem[i]? = h.mem[i]? := by
  obtain ⟨ext, hext⟩ := he
  rw [hext, List.getElem?_append_left hi]

/-- Extension preserves every present node. -/
theorem Heap.ExtendedBy.get_some {h h2 : Heap} (he : h.ExtendedBy h2) {i : Nat}
    {nd : HNode} (hi : h.mem[i]? = some nd) : h2.mem[i]? = some nd := by
  rw [he.get_lt (getElem?_some_lt hi)]
  exact hi

/-- Allocation extends the heap. -/
theorem Heap.extendedBy_alloc (h : Heap) (nd : HNode) :
    h.ExtendedBy ⟨h.mem ++ [nd]⟩ := ⟨[nd], rfl⟩

/-- All pointers from nodes at addresses `≥ n` stay `≥ n`. -/
def RegionClosed (h : Heap) (n : Nat) : Prop :=
  ∀ i nd, n ≤ i → h.mem[i]? = some nd → ∀ b ∈ nd.children, n ≤ b

/-- Above its own length a heap has no nodes: the empty region is closed. -/
theorem regionClosed_self (h : Heap) : RegionClosed h h.mem.length := by
  intro i nd hi hget
  rw [List.getElem?_eq_none hi] at hget
  exact Option.noConfusion hget

/-- Allocating a node whose children stay in the region keeps it closed. -/
theorem RegionClosed.alloc {h1 : Heap} {n : Nat} (hrc : RegionClosed h1 n)
    (nd : HNode) (hnd : ∀ b ∈ nd.children, n ≤ b) :
    RegionClosed ⟨h1.mem ++ [nd]⟩ n := by
  intro i nd' hi hget b hb
  have hget' : (h1.mem ++ [nd])[i]? = some nd' := hget
  rcases Nat.lt_or_ge i h1.mem.length with hlt | hge
  · rw [List.getElem?_append_left hlt] at hget'
    exact hrc i nd' hi hget' b hb
  · rw [List.getElem?_append_right hge] at hget'
    rcases Nat.lt_or_ge i (h1.mem.length + 1) with hlt2 | hge2
    · have hi0 : i - h1.mem.length = 0 := by omega
      rw [hi0] at hget'
      simp only [List.getElem?_cons_zero] at hget'
      injection hget' with hnd'
      subst hnd'
      exact hnd b hb
    · have hlen : ([nd] : List HNode).length ≤ i - h1.mem.length := by
        simp only [List.length_singleton]
        omega
      rw [List.getElem?_eq_none hlen] at hget'
      exact Option.noConfusion hget'

/-- A region closed for `n` inside `h1` stays closed for `n` after `h1` grows
into `h2` whose new region is itself closed. -/
theorem RegionClosed.compose {h1 h2 : Heap} {n : Nat}
    (hn : n ≤ h1.mem.length) (hext : h1.ExtendedBy h2)
    (hrc1 : RegionClosed h1 n) (hrc2 : RegionClosed h2 h1.mem.length) :
    RegionClosed h2 n := by
  intro i nd hi hget b hb
  rcases Nat.lt_or_ge i h1.mem.length with hlt | hge
  · rw [hext.get_lt hlt] at hget
    exact hrc1 i nd hi hget b hb
  · exact le_trans hn (hrc2 i nd hge hget b hb)

/-- Reading is unaffected by a heap change that preserves every present
node. -/
theorem read_mono (h h2 : Heap)
    (hag : ∀ (i : Nat) (nd : HNode), h.mem[i]? = some nd → h2.mem[i]? = some nd) :
    ∀ fuel : Nat,
      (∀ a t, readAt fuel h a = some t → readAt fuel h2 a = some t) ∧
      (∀ as ts, readList fuel h as = some ts → readList fuel h2 as = some ts) := by
  intro fuel
  induction fuel with
  | zero =>
    refine ⟨fun a t ht => ?_, fun as ts ht => ?_⟩
    · rw [show readAt 0 h a = none from rfl] at ht
      exact Option.noConfusion ht
    · rw [show readList 0 h as = none from rfl] at ht
      exact Option.noConfusion ht
  | succ f ih =>
    refine ⟨fun a t ht => ?_, fun as ts ht => ?_⟩
    · cases hget : h.mem[a]? with
      | none =>
        simp only [readAt, hget] at ht
        exact Option.noConfusion ht
      | some nd =>
        have hget2 := hag a nd hget
        cases nd with
        | note n =>
          simp only [readAt, hget] at ht
          simp only [readAt, hget2]
          exact ht
        | pause p =>
          simp only [readAt, hget] at ht
          simp only [readAt, hget2]
          exact ht
        | seq as' =>
          simp only [readAt, hget] at ht
          simp only [readAt, hget2]
          cases hrl : readList f h as' with
          | none => rw [hrl] at ht; exact Option.noConfusion ht
          | some ts' =>
            rw [hrl] at ht
            rw [ih.2 as' ts' hrl]
            exact ht
        | par as' =>
          simp only [readAt, hget] at ht
          simp only [readAt, hget2]
          cases hrl : readList f h as' with
          | none => rw [hrl] at ht; exact Option.noConfusion ht
          | some ts' =>
            rw [hrl] at ht
            rw [ih.2 as' ts' hrl]
            exact ht
    · cases as with
      | nil => exact ht
      | cons a as' =>
        cases hra : readAt f h a with
        | none =>
          cases hrl : readList f h as' with
          | none =>
            simp only [readList, hra, hrl] at ht
            exact Option.noConfusion ht
          | some ts' =>
            simp only [readList, hra, hrl] at ht
            exact Option.noConfusion ht
        | some t' =>
          cases hrl : readList f h as' with
          | none =>
            simp only [readList, hra, hrl] at ht
            exact Option.noConfusion ht
          | some ts' =>
            simp only [readList, hra, hrl] at ht
            simp only [readList, ih.1 a t' hra, ih.2 as' ts' hrl]
            exact ht

/-- What `clone_box` guarantees: the heap only grows, the returned root is a
fresh address, and the freshly cloned region only points into itself. -/
theorem clone_spec :
    ∀ fuel : Nat,
      (∀ h a h2 b, cloneAt fuel h a = some (h2, b) →
        h.ExtendedBy h2 ∧ h.mem.length ≤ b ∧ b < h2.mem.length ∧
        RegionClosed h2 h.mem.length) ∧
      (∀ h as h2 bs, cloneList fuel h as = some (h2, bs) →
        h.ExtendedBy h2 ∧ (∀ b ∈ bs, h.mem.length ≤ b ∧ b < h2.mem.length) ∧
        RegionClosed h2 h.mem.length) := by
  intro fuel
  induction fuel with
  | zero =>
    refine ⟨fun h a h2 b ht => ?_, fun h as h2 bs ht => ?_⟩
    · rw [show cloneAt 0 h a = none from rfl] at ht
      exact Option.noConfusion ht
    · rw [show cloneList 0 h as = none from rfl] at ht
      exact Option.noConfusion ht
  | succ f ih =>
    refine ⟨fun h a h2 b ht => ?_, fun h as h2 bs ht => ?_⟩
    · cases hget : h.mem[a]? with
      | none => simp only [cloneAt, hget] at ht; exact Option.noConfusion ht
      | some nd =>
        cases nd with
        | note n =>
          simp only [cloneAt, hget, Heap.alloc, Option.some.injEq, Prod.mk.injEq] at ht
          obtain ⟨hh2, hb⟩ := ht
          subst hh2; subst hb
          refine ⟨Heap.extendedBy_alloc h _, le_refl _, by simp, ?_⟩
          refine (regionClosed_self h).alloc _ ?_
          intro b hb
          simp [HNode.children] at hb
        | pause p =>
          simp only [cloneAt, hget, Heap.alloc, Option.some.injEq, Prod.mk.injEq] at ht
          obtain ⟨hh2, hb⟩ := ht
          subst hh2; subst hb
          refine ⟨Heap.extendedBy_alloc h _, le_refl _, by simp, ?_⟩
          refine (regionClosed_self h).alloc _ ?_
          intro b hb
          simp [HNode.children] at hb
        | seq as' =>
          cases hcl : cloneList f h as' with
          | none => simp only [cloneAt, hget, hcl] at ht; exact Option.noConfusion ht
          | some pr =>
            obtain ⟨h1, bs1⟩ := pr
            simp only [cloneAt, hget, hcl, Heap.alloc, Option.some.injEq,
              Prod.mk.injEq] at ht
            obtain ⟨hh2, hb⟩ := ht
            subst hh2; subst hb
            obtain ⟨hext1, hbs, hrc1⟩ := ih.2 h as' h1 bs1 hcl
            refine ⟨hext1.trans (Heap.extendedBy_alloc h1 _), hext1.length_le, by simp, ?_⟩
            refine hrc1.alloc _ ?_
            intro b hb
            simp only [HNode.children] at hb
            exact (hbs b hb).1
        | par as' =>
          cases hcl : cloneList f h as' with
          | none => simp only [cloneAt, hget, hcl] at ht; exact Option.noConfusion ht
          | some pr =>
            obtain ⟨h1, bs1⟩ := pr
            simp only [cloneAt, hget, hcl, Heap.alloc, Option.some.injEq,
              Prod.mk.injEq] at ht
            obtain ⟨hh2, hb⟩ := ht
            subst hh2; subst hb
            obtain ⟨hext1, hbs, hrc1⟩ := ih.2 h as' h1 bs1 hcl
            refine ⟨hext1.trans (Heap.extendedBy_alloc h1 _), hext1.length_le, by simp, ?_⟩
            refine hrc1.alloc _ ?_
            intro b hb
            simp only [HNode.children] at hb
            exact (hbs b hb).1
    · cases as with
      | nil =>
        simp only [cloneList, Option.some.injEq, Prod.mk.injEq] at ht
        obtain ⟨hh2, hbs⟩ := ht
        subst hh2; subst hbs
        refine ⟨Heap.ExtendedBy.refl h, ?_, regionClosed_self h⟩
        intro b hb
        cases hb
      | cons a as' =>
        cases hca : cloneAt f h a with
        | none => simp only [cloneList, hca] at ht; exact Option.noConfusion ht
        | some pr1 =>
          obtain ⟨h1, b1⟩ := pr1
          cases hcl : cloneList f h1 as' with
          | none => simp only [cloneList, hca, hcl] at ht; exact Option.noConfusion ht
          | some pr2 =>
            obtain ⟨h2', bs'⟩ := pr2
            simp only [cloneList, hca, hcl, Option.some.injEq, Prod.mk.injEq] at ht
            obtain ⟨hh2, hbs⟩ := ht
            subst hh2; subst hbs
            obtain ⟨hext1, hb1, hb1lt, hrc1⟩ := ih.1 h a h1 b1 hca
            obtain ⟨hext2, hbs2, hrc2⟩ := ih.2 h1 as' h2' bs' hcl
            refine ⟨hext1.trans hext2, ?_, ?_⟩
            · intro b hb
              rcases List.mem_cons.mp hb with rfl | hb'
              · exact ⟨hb1, lt_of_lt_of_le hb1lt hext2.length_le⟩
              · obtain ⟨hge, hlt⟩ := hbs2 b hb'
                exact ⟨le_trans hext1.length_le hge, hlt⟩
            · exact RegionClosed.compose hext1.length_le hext2 hrc1 hrc2

/-- What in-place `set_channel` guarantees: the heap keeps its size, addresses
below a closed region it starts in are untouched, and the region stays
closed. -/
theorem setChan_frame :
    ∀ fuel : Nat,
      (∀ c h a h2 n, RegionClosed h n → n ≤ a → setChanAt fuel c h a = some h2 →
        (∀ i, i < n → h2.mem[i]? = h.mem[i]?) ∧ h2.mem.length = h.mem.length ∧
        RegionClosed h2 n) ∧
      (∀ c h as h2 n, RegionClosed h n → (∀ a ∈ as, n ≤ a) →
        setChanList fuel c h as = some h2 →
        (∀ i, i < n → h2.mem[i]? = h.mem[i]?) ∧ h2.mem.length = h.mem.length ∧
        RegionClosed h2 n) := by
  intro fuel
  induction fuel with
  | zero =>
    refine ⟨fun c h a h2 n _ _ ht => ?_, fun c h as h2 n _ _ ht => ?_⟩
    · rw [show setChanAt 0 c h a = none from rfl] at ht
      exact Option.noConfusion ht
    · rw [show setChanList 0 c h as = none from rfl] at ht
      exact Option.noConfusion ht
  | succ f ih =>
    refine ⟨fun c h a h2 n hrc hna ht => ?_, fun c h as h2 n hrc hnas ht => ?_⟩
    · cases hget : h.mem[a]? with
      | none => simp only [setChanAt, hget] at ht; exact Option.noConfusion ht
      | some nd =>
        cases nd with
        | note nn =>
          simp only [setChanAt, hget, Option.some.injEq] at ht
          subst ht
          refine ⟨?_, ?_, ?_⟩
          · intro i hi
            exact List.getElem?_set_ne (by omega)
          · exact List.length_set _ _ _
          · intro i nd' hi hget' b hb
            by_cases hia : i = a
            · subst hia
              have halt : i < h.mem.length := getElem?_some_lt hget
              have hget'' : (h.mem.set i
                  (HNode.note ⟨nn.name, nn.octave, c, nn.duration⟩))[i]? =
                  some (HNode.note ⟨nn.name, nn.octave, c, nn.duration⟩) :=
                List.getElem?_set_eq_of_lt _ halt
              rw [hget''] at hget'
              injection hget' with hnd'
              subst hnd'
              simp [HNode.children] at hb
            · have hget'' : (h.mem.set a
                  (HNode.note ⟨nn.name, nn.octave, c, nn.duration⟩))[i]? = h.mem[i]? :=
                List.getElem?_set_ne (fun hh => hia hh.symm)
              rw [hget''] at hget'
              exact hrc i nd' hi hget' b hb
        | pause p =>
          simp only [setChanAt, hget, Option.some.injEq] at ht
          subst ht
          exact ⟨fun i _ => rfl, rfl, hrc⟩
        | seq as' =>
          simp only [setChanAt, hget] at ht
          have hch : ∀ b ∈ as', n ≤ b := by
            intro b hb
            exact hrc a (HNode.seq as') hna hget b (by simpa [HNode.children] using hb)
          exact ih.2 c h as' h2 n hrc hch ht
        | par as' =>
          simp only [setChanAt, hget] at ht
          have hch : ∀ b ∈ as', n ≤ b := by
            intro b hb
            exact hrc a (HNode.par as') hna hget b (by simpa [HNode.children] using hb)
          exact ih.2 c h as' h2 n hrc hch ht
    · cases as with
      | nil =>
        simp only [setChanList, Option.some.injEq] at ht
        subst ht
        exact ⟨fun i _ => rfl, rfl, hrc⟩
      | cons a as' =>
        cases hsa : setChanAt f c h a with
        | none => simp only [setChanList, hsa] at ht; exact Option.noConfusion ht
        | some h1 =>
          simp only [setChanList, hsa] at ht
          obtain ⟨hf1, hl1, hrc1⟩ := ih.1 c h a h1 n hrc (hnas a (by simp)) hsa
          obtain ⟨hf2, hl2, hrc2⟩ :=
            ih.2 c h1 as' h2 n hrc1 (fun x hx => hnas x (by simp [hx])) ht
          exact ⟨fun i hi => (hf2 i hi).trans (hf1 i hi), hl2.trans hl1, hrc2⟩

/-- C6: deep-copy independence.  If the tree `t` can be read at address `a`,
cloning `a` (with `clone_box` semantics) yields a fresh root `b`, and then
setting any channel through `b` mutates only the clone: reading `a` afterwards
still yields exactly `t` — every `Note` of the original keeps its
instrument. -/
theorem claim6_clone_independence
    (fuel1 fuel2 fuel3 : Nat) (h h2 h3 : Heap) (a b : Nat) (t : MusicElement)
    (c : Channel)
    (hread : readAt fuel1 h a = some t)
    (hclone : cloneAt fuel2 h a = some (h2, b))
    (hset : setChanAt fuel3 c h2 b = some h3) :
    readAt fuel1 h3 a = some t := by
  obtain ⟨hext, hb, hb2, hrc⟩ := (clone_spec fuel2).1 h a h2 b hclone
  obtain ⟨hframe, hlen, hrc2⟩ := (setChan_frame fuel3).1 c h2 b h3 h.mem.length hrc hb hset
  have hag : ∀ (i : Nat) (nd : HNode), h.mem[i]? = some nd → h3.mem[i]? = some nd := by
    intro i nd hi
    have hil : i < h.mem.length := getElem?_some_lt hi
    rw [hframe i hil]
    exact hext.get_some hi
  exact (read_mono h h3 hag fuel1).1 a t hread

/-- Witness for C6: a one-note heap, cloned and retargeted to `Organ`; the
original note still reads back with instrument `Piano`. -/
theorem claim6_witness :
    (readAt 1 ⟨[HNode.note ⟨NoteClass.C, 4, Channel.Piano, 1/4⟩]⟩ 0 =
      some (MusicElement.note ⟨NoteClass.C, 4, Channel.Piano, 1/4⟩)) ∧
    (cloneAt 1 ⟨[HNode.note ⟨NoteClass.C, 4, Channel.Piano, 1/4⟩]⟩ 0 =
      some (⟨[HNode.note ⟨NoteClass.C, 4, Channel.Piano, 1/4⟩,
              HNode.note ⟨NoteClass.C, 4, Channel.Piano, 1/4⟩]⟩, 1)) ∧
    (setChanAt 1 Channel.Organ ⟨[HNode.note ⟨NoteClass.C, 4, Channel.Piano, 1/4⟩,
              HNode.note ⟨NoteClass.C, 4, Channel.Piano, 1/4⟩]⟩ 1 =
      some ⟨[HNode.note ⟨NoteClass.C, 4, Channel.Piano, 1/4⟩,
             HNode.note ⟨NoteClass.C, 4, Channel.Organ, 1/4⟩]⟩) ∧
    readAt 1 ⟨[HNode.note ⟨NoteClass.C, 4, Channel.Piano, 1/4⟩,
             HNode.note ⟨NoteClass.C, 4, Channel.Organ, 1/4⟩]⟩ 0 =
      some (MusicElement.note ⟨NoteClass.C, 4, Channel.Piano, 1/4⟩) :=
  ⟨rfl, rfl, rfl,
    claim6_clone_independence 1 1 1
      ⟨[HNode.note ⟨NoteClass.C, 4, Channel.Piano, 1/4⟩]⟩
      ⟨[HNode.note ⟨NoteClass.C, 4, Channel.Piano, 1/4⟩,
        HNode.note ⟨NoteClass.C, 4, Channel.Piano, 1/4⟩]⟩
      ⟨[HNode.note ⟨NoteClass.C, 4, Channel.Piano, 1/4⟩,
        HNode.note ⟨NoteClass.C, 4, Channel.Organ, 1/4⟩]⟩
      0 1 (MusicElement.note ⟨NoteClass.C, 4, Channel.Piano, 1/4⟩)
      Channel.Organ rfl rfl rfl⟩
